import Mathlib

/-!
Verification of the nREPL client/server demo repository.

The repository ships two source files (`src/main.rs`, `src/server.rs`) and
declares a `client` module whose source file is absent from the tree; the
client (codec, transport, correlator) is therefore modelled from the
specification's own description, while `server.rs` and `main.rs` are embedded
directly from the source.

Bytes are modelled as natural numbers (the ASCII/Unicode code points the code
manipulates), Rust `Option`/`Result` as `Option`/`Except`, and the process /
socket boundary as explicit event lists.
-/

namespace NreplDemo

/-! ## Bencode codec (modelled from the spec)

Modelled from the spec: the repository's `client` module (absent from the
source tree; only `mod client;` and its call sites in `main.rs` remain) uses a
self-delimiting binary dictionary encoding in which "text values carry
explicit length, integers are written as ASCII digits with guard characters,
sequences and mappings are length-agnostic and terminated by an end marker" —
i.e. bencode. -/

/-- A sequence of raw bytes (binary-safe text). -/
abbrev Bytes := List Nat

/-- A bencode value: binary-safe text, integer, ordered sequence, or ordered
mapping, as the spec's Message data model describes. -/
inductive BVal where
  | str : Bytes → BVal
  | int : Int → BVal
  | list : List BVal → BVal
  | dict : List (Bytes × BVal) → BVal
deriving Repr

/-- A message is the spec's "ordered mapping from binary-safe keys to values".
-/
abbrev Message := List (Bytes × BVal)

/-- ASCII decimal digits of a natural number, most significant first; the
fuel argument only bounds the recursion (any fuel above the argument's digit
count gives the digits). -/
def natDecimalAux : Nat → Nat → List Nat
  | 0, _ => []
  | Nat.succ fuel, n =>
    if n < 10 then [48 + n]
    else natDecimalAux fuel (n / 10) ++ [48 + n % 10]

/-- ASCII decimal digits of a natural number, most significant first. -/
def natDecimal (n : Nat) : List Nat := natDecimalAux (n + 1) n

/-- ASCII decimal form of an integer: a minus sign for negatives, then the
digits of the absolute value. -/
def intDecimal (i : Int) : List Nat :=
  if i < 0 then 45 :: natDecimal i.natAbs else natDecimal i.toNat

mutual

/-- Modelled from the spec: bencode encoding of one value.  Text is
`<len>:<bytes>`, integers are `i<digits>e`, sequences are `l…e`, mappings are
`d…e`. -/
def encodeVal : BVal → List Nat
  | .str s => natDecimal s.length ++ 58 :: s
  | .int i => 105 :: intDecimal i ++ [101]
  | .list vs => 108 :: encodeItems vs
  | .dict ps => 100 :: encodePairs ps

/-- Encoding of a sequence's items followed by the end marker `e`. -/
def encodeItems : List BVal → List Nat
  | [] => [101]
  | v :: vs => encodeVal v ++ encodeItems vs

/-- Encoding of a mapping's key/value pairs followed by the end marker `e`. -/
def encodePairs : List (Bytes × BVal) → List Nat
  | [] => [101]
  | (k, v) :: ps => (natDecimal k.length ++ 58 :: k) ++ encodeVal v ++ encodePairs ps

end

/-- Modelled from the spec: `encode(message) -> bytes`, the message being the
top-level dictionary. -/
def encode (m : Message) : List Nat := encodeVal (.dict m)

/-- Is the byte an ASCII decimal digit? -/
def isDigitByte (b : Nat) : Bool := 48 ≤ b && b ≤ 57

/-- Split off the maximal leading run of ASCII digits. -/
def takeDigits : List Nat → List Nat × List Nat
  | [] => ([], [])
  | b :: rest =>
    if isDigitByte b then
      let (ds, r) := takeDigits rest
      (b :: ds, r)
    else ([], b :: rest)

/-- Numeric value of a list of ASCII digits. -/
def digitsToNat (ds : List Nat) : Nat :=
  ds.foldl (fun a d => a * 10 + (d - 48)) 0

/-- Decode one length-prefixed byte string: `<len>:<bytes>`. -/
def decodeStr (bytes : List Nat) : Option (Bytes × List Nat) :=
  match takeDigits bytes with
  | (ds, r) =>
    if ds = [] then none
    else
      match r with
      | 58 :: r2 =>
        let n := digitsToNat ds
        if n ≤ r2.length then some (r2.take n, r2.drop n) else none
      | _ => none

/-- Decode one integer body (after the `i` marker) up to its `e` marker. -/
def decodeIntBody (bytes : List Nat) : Option (Int × List Nat) :=
  match bytes with
  | [] => none
  | c :: rest =>
    if c = 45 then
      match takeDigits rest with
      | (ds, r) =>
        if ds = [] then none
        else
          match r with
          | 101 :: r2 => some (-(digitsToNat ds : Int), r2)
          | _ => none
    else
      match takeDigits (c :: rest) with
      | (ds, r) =>
        if ds = [] then none
        else
          match r with
          | 101 :: r2 => some ((digitsToNat ds : Int), r2)
          | _ => none

mutual

/-- Modelled from the spec: incremental bencode decoding of one value from the
front of a buffer, returning the value and the unconsumed remainder, or `none`
when the buffer does not yet hold a complete value.  `fuel` bounds the
recursion depth; the callers pass the buffer length, which the real decoder
can never recurse past since every nesting level consumes at least one byte.
-/
def decodeVal : Nat → List Nat → Option (BVal × List Nat)
  | 0, _ => none
  | Nat.succ fuel, bytes =>
    match bytes with
    | [] => none
    | c :: rest =>
      if c = 105 then
        match decodeIntBody rest with
        | some (i, r) => some (.int i, r)
        | none => none
      else if c = 108 then
        match decodeItemsAux fuel rest with
        | some (vs, r) => some (.list vs, r)
        | none => none
      else if c = 100 then
        match decodePairsAux fuel rest with
        | some (ps, r) => some (.dict ps, r)
        | none => none
      else
        match decodeStr (c :: rest) with
        | some (s, r) => some (.str s, r)
        | none => none

/-- Decode sequence items until the end marker `e`. -/
def decodeItemsAux : Nat → List Nat → Option (List BVal × List Nat)
  | 0, _ => none
  | Nat.succ fuel, bytes =>
    match bytes with
    | [] => none
    | c :: rest =>
      if c = 101 then some ([], rest)
      else
        match decodeVal fuel (c :: rest) with
        | some (v, r) =>
          match decodeItemsAux fuel r with
          | some (vs, r2) => some (v :: vs, r2)
          | none => none
        | none => none

/-- Decode mapping pairs until the end marker `e`. -/
def decodePairsAux : Nat → List Nat → Option (List (Bytes × BVal) × List Nat)
  | 0, _ => none
  | Nat.succ fuel, bytes =>
    match bytes with
    | [] => none
    | c :: rest =>
      if c = 101 then some ([], rest)
      else
        match decodeStr (c :: rest) with
        | some (k, r) =>
          match decodeVal fuel r with
          | some (v, r2) =>
            match decodePairsAux fuel r2 with
            | some (ps, r3) => some ((k, v) :: ps, r3)
            | none => none
          | none => none
        | none => none

end

/-- Modelled from the spec: decode the next complete dictionary message from
the front of a buffer, returning it with the unconsumed trailing bytes, or
`none` when no complete message is present yet. -/
def decode (bytes : List Nat) : Option (Message × List Nat) :=
  match decodeVal bytes.length bytes with
  | some (.dict ps, r) => some (ps, r)
  | _ => none

/-- Code points of a string literal, used to spell message keys. -/
def strBytes (s : String) : Bytes := s.data.map Char.toNat

/-- The recognized message field set (spec §3). -/
def recognizedKeys : List Bytes :=
  [strBytes "op", strBytes "id", strBytes "session", strBytes "code",
   strBytes "value", strBytes "out", strBytes "err", strBytes "ex",
   strBytes "status", strBytes "new-session", strBytes "ops",
   strBytes "interrupt-id"]

/-- A message over the recognized field set. -/
abbrev isMessage (m : Message) : Prop := ∀ p ∈ m, p.1 ∈ recognizedKeys

/-- A concrete eval request message. -/
def sampleMessage : Message :=
  [(strBytes "op", .str (strBytes "eval")),
   (strBytes "id", .int 7),
   (strBytes "code", .str (strBytes "(+ 1 2)")),
   (strBytes "status", .list [.str (strBytes "done")])]

/-! ## Transport (modelled from the spec)

Modelled from the spec: the transport of the absent `client` module owns the
TCP stream, a read-side byte accumulator and a closed flag (§4.2).  Socket
reads are modelled as an event list: a read either yields some bytes, hits
the read deadline, or observes EOF (a zero-byte read). -/

/-- One socket read outcome. -/
inductive ReadEv where
  | chunk : List Nat → ReadEv
  | timeout : ReadEv
  | eof : ReadEv

/-- Transport state: the read-side byte accumulator and the closed flag. -/
structure Transport where
  acc : List Nat
  closed : Bool

/-- Result of `receive_one`. -/
inductive RecvResult where
  | msg : Message → RecvResult
  | timeout : RecvResult
  | connClosed : RecvResult

/-- Outcome of a `receive_one` call: result, new transport state, unconsumed
read events, and the number of socket read attempts performed. -/
structure RecvOut where
  res : RecvResult
  t : Transport
  evs : List ReadEv
  reads : Nat

/-- Modelled from the spec (§4.2 `receive_one`): if the connection is closed,
fail immediately without I/O; if the accumulator already decodes, return the
message without touching the socket; otherwise read into the accumulator and
retry until a message completes, the deadline elapses (accumulator preserved),
or EOF is observed (closed flag set permanently). -/
def receiveOne (t : Transport) (evs : List ReadEv) : RecvOut :=
  if t.closed then ⟨.connClosed, t, evs, 0⟩
  else
    match decode t.acc with
    | some (m, restBytes) => ⟨.msg m, { t with acc := restBytes }, evs, 0⟩
    | none =>
      match evs with
      | [] => ⟨.timeout, t, [], 0⟩
      | .timeout :: evs2 => ⟨.timeout, t, evs2, 1⟩
      | .eof :: evs2 => ⟨.connClosed, { t with closed := true }, evs2, 1⟩
      | .chunk bs :: evs2 =>
        let r := receiveOne { t with acc := t.acc ++ bs } evs2
        ⟨r.res, r.t, r.evs, r.reads + 1⟩

/-- Modelled from the spec (§4.2): `is_connected()` reflects only the local
closed flag. -/
def is_connected (t : Transport) : Bool := !t.closed

/-- A transport-level operation: send a message, or receive with the given
socket read events. -/
inductive TransportOp where
  | opSend : Message → TransportOp
  | opRecv : List ReadEv → TransportOp

/-- Caller-visible outcome of one transport operation. -/
inductive OpOutcome where
  | ok
  | timeout
  | connClosed
deriving Repr, DecidableEq

/-- Modelled from the spec (§4.2, §7): run one operation; a closed connection
fails immediately with `ConnectionClosed` and performs no I/O.  The third
component counts socket I/O attempts. -/
def runOp (t : Transport) : TransportOp → OpOutcome × Transport × Nat
  | .opSend _ => if t.closed then (.connClosed, t, 0) else (.ok, t, 1)
  | .opRecv evs =>
    let r := receiveOne t evs
    (match r.res with
     | .msg _ => .ok
     | .timeout => .timeout
     | .connClosed => .connClosed,
     r.t, r.reads)

/-- Run a sequence of transport operations, collecting outcomes, the final
state and the total I/O attempt count. -/
def runOps (t : Transport) : List TransportOp → List OpOutcome × Transport × Nat
  | [] => ([], t, 0)
  | op :: ops =>
    let (o, t1, n1) := runOp t op
    let (os, t2, n2) := runOps t1 ops
    (o :: os, t2, n1 + n2)

/-- A one-field eval message used as concrete transport input. -/
def msgA : Message := [(strBytes "op", .str (strBytes "eval"))]

/-- First five bytes of `msgA`'s encoding: a strict message prefix. -/
def chunkA : List Nat := (encode msgA).take 5

/-- Remainder of `msgA`'s encoding after `chunkA`. -/
def chunkB : List Nat := (encode msgA).drop 5

/-! ## Correlator (modelled from the spec)

Modelled from the spec: the correlator of the absent `client` module
aggregates the asynchronous response fragments of one eval request (§4.3).
Texts are modelled as lists of characters. -/

/-- Spec-level text. -/
abbrev Str := List Char

/-- One response fragment, with the payload fields the correlator consumes. -/
structure Frag where
  fid : Nat
  out : Option Str
  value : Option Str
  err : Option Str
  ex : Option Str
  status : List Str

/-- The in-flight aggregation state of one pending request (spec §3
PendingRequest / EvalResult). -/
structure EvalAgg where
  output : Str
  value : Option Str
  hasError : Bool
  errText : Str
deriving Repr, DecidableEq

/-- Aggregation state when the request is sent. -/
def initAgg : EvalAgg := ⟨[], none, false, []⟩

/-- Modelled from the spec (§4.3 step 3): apply one fragment — append `out`
text, overwrite the value when `value` is present (last wins), append error
text and set the flag when `err` or an exception field is present; fragments
with a different id are ignored. -/
def stepFrag (awaited : Nat) (st : EvalAgg) (f : Frag) : EvalAgg :=
  if f.fid = awaited then
    { output := st.output ++ f.out.getD []
      value := match f.value with | some v => some v | none => st.value
      hasError := st.hasError || f.err.isSome || f.ex.isSome
      errText := st.errText ++ f.err.getD [] ++ f.ex.getD [] }
  else st

/-- The terminal "done" status. -/
def doneStatus : Str := ['d', 'o', 'n', 'e']

/-- Does the fragment carry a terminal "done" status? -/
def isDone (f : Frag) : Bool := f.status.contains doneStatus

/-- Modelled from the spec (§4.3 step 2): consume fragments until one with
the awaited id reports terminal status; `none` models the deadline elapsing
before a terminal status arrives. -/
def runEval (awaited : Nat) (st : EvalAgg) : List Frag → Option EvalAgg
  | [] => none
  | f :: fs =>
    let st2 := stepFrag awaited st f
    if f.fid = awaited && isDone f then some st2 else runEval awaited st2 fs

/-- Concatenation of the `out` texts of a fragment list, in arrival order. -/
def outConcat : List Frag → Str
  | [] => []
  | f :: fs => f.out.getD [] ++ outConcat fs

/-- The last `value` carried by a fragment list, if any. -/
def lastValue : List Frag → Option Str
  | [] => none
  | f :: fs =>
    match lastValue fs with
    | some v => some v
    | none => f.value

/-- Did any fragment carry `err` or an exception field? -/
def anyErr : List Frag → Bool
  | [] => false
  | f :: fs => f.err.isSome || f.ex.isSome || anyErr fs

/-- Concatenation of the error and exception texts, in arrival order. -/
def errConcat : List Frag → Str
  | [] => []
  | f :: fs => f.err.getD [] ++ f.ex.getD [] ++ errConcat fs

/-- A fragment carrying only `out` text. -/
def fragOut (i : Nat) (s : Str) : Frag := ⟨i, some s, none, none, none, []⟩

/-- A fragment carrying only a `value`. -/
def fragVal (i : Nat) (s : Str) : Frag := ⟨i, none, some s, none, none, []⟩

/-- A terminal fragment with status `["done"]`. -/
def fragDone (i : Nat) : Frag := ⟨i, none, none, none, none, [doneStatus]⟩

/-- The example fragment sequence of C3 before its terminal fragment. -/
def fragsEx : List Frag := [fragOut 7 ['a'], fragOut 7 ['b'], fragVal 7 ['3']]

/-! ## server.rs (embedded from the source) -/

/-- A decimal digit as matched by the digit escape of the regex
`port (\d+)` in `parse_port_from_output`: the regex crate's default Unicode
mode matches every character of Unicode category Nd.  The model covers the
ASCII digits and the Arabic-Indic digit block U+0660–U+0669, both inside Nd
and sufficient for the lines considered here. -/
def isUniDigit (c : Char) : Bool :=
  c.isDigit || (0x660 ≤ c.toNat && c.toNat ≤ 0x669)

/-- Match `port (\d+)` at the head of `l` with digit class `p`: the literal
`port ` followed by at least one digit; the capture is the maximal digit
run. -/
def portMatchAtP (p : Char → Bool) (l : List Char) : Option (List Char) :=
  if l.take 5 = ['p', 'o', 'r', 't', ' '] then
    let run := (l.drop 5).takeWhile p
    if run.isEmpty then none else some run
  else none

/-- Leftmost match of `port (\d+)` with digit class `p`: scan start positions
left to right, as the regex engine does. -/
def findPortRunP (p : Char → Bool) : List Char → Option (List Char)
  | [] => none
  | c :: rest =>
    match portMatchAtP p (c :: rest) with
    | some run => some run
    | none => findPortRunP p rest

/-- Rust `str::parse::<u16>`: an optional leading `+`, then one or more ASCII
digits whose value fits in 16 bits. -/
def parseU16 (s : List Char) : Option Nat :=
  let digits := match s with
    | '+' :: rest => rest
    | _ => s
  if digits.isEmpty then none
  else if digits.all Char.isDigit then
    let n := digits.foldl (fun a c => a * 10 + (c.toNat - 48)) 0
    if n ≤ 65535 then some n else none
  else none

/-- Embedded from `server.rs` lines 30–34: find the first match of
`port (\d+)` in the line and parse capture group 1 as a `u16`; any failure
yields `None`. -/
def parse_port_from_output (line : List Char) : Option Nat :=
  (findPortRunP isUniDigit line).bind parseU16

/-- The behavior claim C8 ascribes to `parse_port_from_output`: the same
search with the digit class restricted to the ASCII digits. -/
def claimedPortParse (line : List Char) : Option Nat :=
  (findPortRunP Char.isDigit line).bind parseU16

/-- A line whose first `port ` is followed by the Arabic-Indic digit U+0660
and whose second is followed by the ASCII digit 7. -/
def cexLine : List Char :=
  ['p', 'o', 'r', 't', ' ', '٠', ' ', 'p', 'o', 'r', 't', ' ', '7']

/-- An ASCII fragment of the startup line used by the repository's test. -/
def portLine : List Char := ['o', 'n', ' ', 'p', 'o', 'r', 't', ' ', '7', '8', '8', '8']

/-- One `lines_iter.next()` outcome: `some line` models `Some(Ok(line))`;
`none` models `None` or `Some(Err(_))`, both of which the loop skips. -/
abbrev LineRead := Option (List Char)

/-- Embedded from `server.rs` lines 64–73 (`start_with_clj`'s polling loop):
up to `n` line reads; a parsed port breaks out immediately, any other
iteration sleeps 200 ms.  Returns the confirmed port (0 when none was
parsed) and the number of sleeps performed. -/
def pollLoopClj : Nat → List LineRead → Nat × Nat
  | 0, _ => (0, 0)
  | Nat.succ n, reads =>
    match reads with
    | some line :: rest =>
      match parse_port_from_output line with
      | some p => (p, 0)
      | none =>
        let (q, s) := pollLoopClj n rest
        (q, s + 1)
    | none :: rest =>
      let (q, s) := pollLoopClj n rest
      (q, s + 1)
    | [] =>
      let (q, s) := pollLoopClj n []
      (q, s + 1)

/-- Embedded from `server.rs` lines 101–110 (`start_with_lein`'s polling
loop, textually identical to the clj one). -/
def pollLoopLein : Nat → List LineRead → Nat × Nat
  | 0, _ => (0, 0)
  | Nat.succ n, reads =>
    match reads with
    | some line :: rest =>
      match parse_port_from_output line with
      | some p => (p, 0)
      | none =>
        let (q, s) := pollLoopLein n rest
        (q, s + 1)
    | none :: rest =>
      let (q, s) := pollLoopLein n rest
      (q, s + 1)
    | [] =>
      let (q, s) := pollLoopLein n []
      (q, s + 1)

/-- Outcome of a successful launch: the confirmed port, the number of 200 ms
sleeps inside the polling loop, and the fixed extra sleep in milliseconds
taken after polling before returning. -/
structure LaunchOut where
  port : Nat
  sleeps200 : Nat
  extraSleepMs : Nat
deriving Repr, DecidableEq

/-- Embedded from `server.rs` lines 42–80: `start_with_clj`.  `spawn` is the
outcome of spawning the external process — an I/O error, or the stdout line
reads the child produces. -/
def start_with_clj (spawn : Except Unit (List LineRead)) : Except Unit LaunchOut :=
  match spawn with
  | .error e => .error e
  | .ok reads =>
    let (p, s) := pollLoopClj 10 reads
    .ok ⟨p, s, 0⟩

/-- Embedded from `server.rs` lines 88–119: `start_with_lein`, which after
the same polling additionally sleeps a fixed 2000 ms before returning. -/
def start_with_lein (spawn : Except Unit (List LineRead)) : Except Unit LaunchOut :=
  match spawn with
  | .error e => .error e
  | .ok reads =>
    let (p, s) := pollLoopLein 10 reads
    .ok ⟨p, s, 2000⟩

/-- The first port parsed from a list of line reads, if any. -/
def firstParsedPort (reads : List LineRead) : Option Nat :=
  (reads.filterMap (fun r => r.bind parse_port_from_output)).head?

/-- A startup line that reports no port. -/
def noPortLine : List Char := ['s', 't', 'a', 'r', 't', 'i', 'n', 'g']

/-- Result of `Child::try_wait` in `is_running`. -/
inductive ChildStatus where
  | exited
  | alive
  | statusErr
deriving Repr, DecidableEq

/-- A spawned child process handle, carrying the outcomes of the status,
kill and wait calls the server manager may make on it. -/
structure ChildProc where
  status : ChildStatus
  killOk : Bool
  waitOk : Bool
deriving Repr, DecidableEq

/-- Embedded from `server.rs` lines 12–15: the `NreplServer` state. -/
structure ServerSt where
  child : Option ChildProc
  port : Option Nat
deriving Repr, DecidableEq

/-- Embedded from `server.rs` lines 121–131: `is_running` — true only when a
child is present and `try_wait` reports it still running. -/
def is_running (s : ServerSt) : Bool :=
  match s.child with
  | some c =>
    match c.status with
    | .alive => true
    | _ => false
  | none => false

/-- Embedded from `server.rs` lines 172–178: `stop` — `child.take()` clears
the handle, then `kill` and `wait` run on the taken child; with no child the
call returns `Ok(())` at once. -/
def stop (s : ServerSt) : Except Unit Unit × ServerSt :=
  match s.child with
  | none => (.ok (), s)
  | some c =>
    let s2 : ServerSt := { s with child := none }
    if c.killOk then
      if c.waitOk then (.ok (), s2) else (.error (), s2)
    else (.error (), s2)

/-! ## main.rs (embedded from the source) -/

/-- How a `main` run ends in the model: an index panic on a missing
positional argument, an `expect` panic on an unparsable port, or entering
one of the two modes. -/
inductive MainOutcome where
  | panicIndex
  | panicParse
  | serverMode
  | clientMode : Nat → MainOutcome
deriving Repr, DecidableEq

/-- The literal `server`. -/
def serverArg : List Char := ['s', 'e', 'r', 'v', 'e', 'r']

/-- Embedded from `main.rs` lines 144–158: `main` reads `args[1]` (panicking
when absent), runs the server launcher when it equals `server`, and otherwise
parses `args[2]` as a `u16` port (panicking when absent or unparsable) and
runs the client against it. -/
def mainModel (args : List (List Char)) : MainOutcome :=
  match args[1]? with
  | none => .panicIndex
  | some sel =>
    if sel = serverArg then .serverMode
    else
      match args[2]? with
      | none => .panicIndex
      | some ps =>
        match parseU16 ps with
        | none => .panicParse
        | some p => .clientMode p

/-! ### Decimal digit lemmas -/

theorem natDecimalAux_ne_nil (fuel n : Nat) (h : n < fuel) :
    natDecimalAux fuel n ≠ [] := by
  cases fuel with
  | zero => omega
  | succ fuel =>
    rw [natDecimalAux]
    split <;> simp

theorem natDecimal_ne_nil (n : Nat) : natDecimal n ≠ [] :=
  natDecimalAux_ne_nil (n + 1) n (by omega)

theorem natDecimalAux_mem (fuel : Nat) :
    ∀ n, n < fuel → ∀ d ∈ natDecimalAux fuel n, 48 ≤ d ∧ d ≤ 57 := by
  induction fuel with
  | zero => omega
  | succ fuel ih =>
    intro n hn d hd
    rw [natDecimalAux] at hd
    split at hd
    · simp only [List.mem_singleton] at hd
      omega
    · rename_i h
      rw [List.mem_append] at hd
      rcases hd with h1 | h1
      · have hlt : n / 10 < fuel := by
          have := Nat.div_lt_self (show 0 < n by omega) (show 1 < 10 by omega)
          omega
        exact ih (n / 10) hlt d h1
      · simp only [List.mem_singleton] at h1
        have : n % 10 < 10 := Nat.mod_lt _ (by omega)
        omega

theorem natDecimal_mem (n : Nat) : ∀ d ∈ natDecimal n, 48 ≤ d ∧ d ≤ 57 :=
  natDecimalAux_mem (n + 1) n (by omega)

theorem digitsToNat_snoc (ds : List Nat) (d : Nat) :
    digitsToNat (ds ++ [d]) = digitsToNat ds * 10 + (d - 48) := by
  simp [digitsToNat, List.foldl_append]

theorem digitsToNat_natDecimalAux (fuel : Nat) :
    ∀ n, n < fuel → digitsToNat (natDecimalAux fuel n) = n := by
  induction fuel with
  | zero => omega
  | succ fuel ih =>
    intro n hn
    rw [natDecimalAux]
    split
    · rename_i h
      simp [digitsToNat]
    · rename_i h
      have hlt : n / 10 < fuel := by
        have := Nat.div_lt_self (show 0 < n by omega) (show 1 < 10 by omega)
        omega
      rw [digitsToNat_snoc, ih (n / 10) hlt]
      omega

theorem digitsToNat_natDecimal (n : Nat) : digitsToNat (natDecimal n) = n :=
  digitsToNat_natDecimalAux (n + 1) n (by omega)

/-- The first byte of the given list, if any, is not an ASCII digit. -/
def headNotDigit : List Nat → Prop
  | [] => True
  | b :: _ => isDigitByte b = false

theorem takeDigits_spec (ds rest : List Nat) (h1 : ∀ d ∈ ds, 48 ≤ d ∧ d ≤ 57)
    (h2 : headNotDigit rest) : takeDigits (ds ++ rest) = (ds, rest) := by
  induction ds with
  | nil =>
    cases rest with
    | nil => rfl
    | cons b r =>
      simp only [headNotDigit] at h2
      simp [takeDigits, h2]
  | cons d ds ih =>
    have hd : isDigitByte d = true := by
      have := h1 d (by simp)
      simp [isDigitByte]
      omega
    simp only [List.cons_append, takeDigits, hd, if_true, List.append_eq]
    rw [ih (fun x hx => h1 x (by simp [hx]))]

/-! ### String and integer decode lemmas -/

theorem decodeStr_encode (s : Bytes) (rest : List Nat) :
    decodeStr (natDecimal s.length ++ 58 :: s ++ rest) = some (s, rest) := by
  have hassoc : natDecimal s.length ++ 58 :: s ++ rest
      = natDecimal s.length ++ (58 :: (s ++ rest)) := by simp
  rw [hassoc]
  unfold decodeStr
  rw [takeDigits_spec _ _ (natDecimal_mem s.length) (by simp [headNotDigit, isDigitByte])]
  simp only [natDecimal_ne_nil, if_false, digitsToNat_natDecimal]
  have hlen : s.length ≤ (s ++ rest).length := by simp
  simp [hlen, List.take_left, List.drop_left]

theorem decodeIntBody_encode (i : Int) (rest : List Nat) :
    decodeIntBody (intDecimal i ++ 101 :: rest) = some (i, rest) := by
  unfold intDecimal
  split
  · rename_i h
    simp only [List.cons_append, decodeIntBody]
    rw [if_true]
    rw [takeDigits_spec _ _ (natDecimal_mem _) (by simp [headNotDigit, isDigitByte])]
    have hval : -((digitsToNat (natDecimal i.natAbs) : Nat) : Int) = i := by
      rw [digitsToNat_natDecimal]
      omega
    simp [natDecimal_ne_nil, hval]
  · rename_i h
    obtain ⟨d, ds, hd⟩ : ∃ d ds, natDecimal i.toNat = d :: ds := by
      cases hh : natDecimal i.toNat with
      | nil => exact absurd hh (natDecimal_ne_nil _)
      | cons a b => exact ⟨a, b, rfl⟩
    have hdig : 48 ≤ d ∧ d ≤ 57 := natDecimal_mem _ d (by rw [hd]; simp)
    rw [hd]
    simp only [List.cons_append, decodeIntBody]
    rw [if_neg (show ¬ d = 45 by omega)]
    have htd : takeDigits (d :: (ds ++ 101 :: rest)) = (d :: ds, 101 :: rest) := by
      have hmem : ∀ x ∈ d :: ds, 48 ≤ x ∧ x ≤ 57 := by
        intro x hx
        apply natDecimal_mem i.toNat
        rw [hd]; exact hx
      have := takeDigits_spec (d :: ds) (101 :: rest) hmem
        (by simp [headNotDigit, isDigitByte])
      simpa using this
    rw [htd]
    have hv : digitsToNat (d :: ds) = i.toNat := by
      rw [← hd, digitsToNat_natDecimal]
    simp [hv]
    omega

/-! ### Heads and sizes of encodings -/

theorem encodeVal_len_pos (v : BVal) : 1 ≤ (encodeVal v).length := by
  cases v <;> simp only [encodeVal, List.length_append, List.length_cons] <;> omega

theorem encodeItems_len_pos (vs : List BVal) : 1 ≤ (encodeItems vs).length := by
  cases vs with
  | nil => simp [encodeItems]
  | cons v vs =>
    have := encodeVal_len_pos v
    simp only [encodeItems, List.length_append]
    omega

theorem encodePairs_len_pos (ps : List (Bytes × BVal)) : 1 ≤ (encodePairs ps).length := by
  cases ps with
  | nil => simp [encodePairs]
  | cons p ps =>
    obtain ⟨k, v⟩ := p
    have := encodeVal_len_pos v
    simp only [encodePairs, List.length_append]
    omega

theorem encodeVal_head (v : BVal) : ∃ c cs, encodeVal v = c :: cs ∧ c ≠ 101 := by
  cases v with
  | str s =>
    obtain ⟨d, ds, hd⟩ : ∃ d ds, natDecimal s.length = d :: ds := by
      cases hh : natDecimal s.length with
      | nil => exact absurd hh (natDecimal_ne_nil _)
      | cons a b => exact ⟨a, b, rfl⟩
    have hdig : 48 ≤ d ∧ d ≤ 57 := natDecimal_mem _ d (by rw [hd]; simp)
    exact ⟨d, ds ++ 58 :: s, by simp [encodeVal, hd], by omega⟩
  | int i => exact ⟨105, intDecimal i ++ [101], by simp [encodeVal], by omega⟩
  | list vs => exact ⟨108, encodeItems vs, by rw [encodeVal], by omega⟩
  | dict ps => exact ⟨100, encodePairs ps, by rw [encodeVal], by omega⟩

/-! ### Fuel requirements of the decoder -/

mutual

/-- Recursion depth the decoder needs for one value. -/
def fuelNeed : BVal → Nat
  | .str _ => 1
  | .int _ => 1
  | .list vs => 1 + itemsNeed vs
  | .dict ps => 1 + pairsNeed ps

/-- Recursion depth the decoder needs for a sequence's items. -/
def itemsNeed : List BVal → Nat
  | [] => 1
  | v :: vs => 1 + max (fuelNeed v) (itemsNeed vs)

/-- Recursion depth the decoder needs for a mapping's pairs. -/
def pairsNeed : List (Bytes × BVal) → Nat
  | [] => 1
  | (_, v) :: ps => 1 + max (fuelNeed v) (pairsNeed ps)

end

theorem fuelNeed_pos (v : BVal) : 1 ≤ fuelNeed v := by
  cases v <;> simp only [fuelNeed] <;> omega

theorem itemsNeed_pos (vs : List BVal) : 1 ≤ itemsNeed vs := by
  cases vs <;> simp only [itemsNeed] <;> omega

theorem pairsNeed_pos (ps : List (Bytes × BVal)) : 1 ≤ pairsNeed ps := by
  cases ps with
  | nil => simp only [pairsNeed]; omega
  | cons p ps => obtain ⟨k, v⟩ := p; simp only [pairsNeed]; omega

mutual

theorem fuelNeed_le_len : (v : BVal) → fuelNeed v ≤ (encodeVal v).length
  | .str s => by
    simp only [fuelNeed, encodeVal, List.length_append, List.length_cons]
    omega
  | .int i => by
    simp only [fuelNeed, encodeVal, List.length_append, List.length_cons]
    omega
  | .list vs => by
    have h := itemsNeed_le_len vs
    simp only [fuelNeed, encodeVal, List.length_cons]
    omega
  | .dict ps => by
    have h := pairsNeed_le_len ps
    simp only [fuelNeed, encodeVal, List.length_cons]
    omega

theorem itemsNeed_le_len : (vs : List BVal) → itemsNeed vs ≤ (encodeItems vs).length
  | [] => by simp [itemsNeed, encodeItems]
  | v :: vs => by
    have h1 := fuelNeed_le_len v
    have h2 := itemsNeed_le_len vs
    have h3 := encodeItems_len_pos vs
    have h4 := encodeVal_len_pos v
    simp only [itemsNeed, encodeItems, List.length_append]
    omega

theorem pairsNeed_le_len : (ps : List (Bytes × BVal)) → pairsNeed ps ≤ (encodePairs ps).length
  | [] => by simp [pairsNeed, encodePairs]
  | (k, v) :: ps => by
    have h1 := fuelNeed_le_len v
    have h2 := pairsNeed_le_len ps
    have h3 := encodePairs_len_pos ps
    have h4 := encodeVal_len_pos v
    simp only [pairsNeed, encodePairs, List.length_append, List.length_cons]
    omega

end

/-! ### Round trip: decode after encode -/

theorem decodeRoundAll (fuel : Nat) :
    (∀ v rest, fuelNeed v ≤ fuel →
      decodeVal fuel (encodeVal v ++ rest) = some (v, rest)) ∧
    (∀ vs rest, itemsNeed vs ≤ fuel →
      decodeItemsAux fuel (encodeItems vs ++ rest) = some (vs, rest)) ∧
    (∀ ps rest, pairsNeed ps ≤ fuel →
      decodePairsAux fuel (encodePairs ps ++ rest) = some (ps, rest)) := by
  induction fuel with
  | zero =>
    refine ⟨?_, ?_, ?_⟩
    · intro v rest hf
      have := fuelNeed_pos v
      omega
    · intro vs rest hf
      have := itemsNeed_pos vs
      omega
    · intro ps rest hf
      have := pairsNeed_pos ps
      omega
  | succ fuel ih =>
    obtain ⟨ihv, ihi, ihp⟩ := ih
    refine ⟨?_, ?_, ?_⟩
    · intro v rest hf
      cases v with
      | str s =>
        obtain ⟨d, ds, hd⟩ : ∃ d ds, natDecimal s.length = d :: ds := by
          cases hh : natDecimal s.length with
          | nil => exact absurd hh (natDecimal_ne_nil _)
          | cons a b => exact ⟨a, b, rfl⟩
        have hdig : 48 ≤ d ∧ d ≤ 57 := natDecimal_mem _ d (by rw [hd]; simp)
        have hb : encodeVal (.str s) ++ rest = d :: (ds ++ 58 :: (s ++ rest)) := by
          simp [encodeVal, hd]
        rw [hb]
        simp only [decodeVal]
        rw [if_neg (show ¬ d = 105 by omega), if_neg (show ¬ d = 108 by omega),
          if_neg (show ¬ d = 100 by omega)]
        have hb2 : d :: (ds ++ 58 :: (s ++ rest)) = natDecimal s.length ++ 58 :: s ++ rest := by
          simp [hd]
        rw [hb2, decodeStr_encode]
      | int i =>
        have hb : encodeVal (.int i) ++ rest = 105 :: (intDecimal i ++ 101 :: rest) := by
          simp [encodeVal]
        rw [hb]
        simp only [decodeVal]
        rw [if_true, decodeIntBody_encode]
      | list vs =>
        have hb : encodeVal (.list vs) ++ rest = 108 :: (encodeItems vs ++ rest) := by
          simp [encodeVal]
        rw [hb]
        simp only [decodeVal]
        rw [if_true]
        simp only [fuelNeed] at hf
        rw [ihi vs rest (by omega)]
        simp
      | dict ps =>
        have hb : encodeVal (.dict ps) ++ rest = 100 :: (encodePairs ps ++ rest) := by
          simp [encodeVal]
        rw [hb]
        simp only [decodeVal]
        rw [if_true]
        simp only [fuelNeed] at hf
        rw [ihp ps rest (by omega)]
        simp
    · intro vs rest hf
      cases vs with
      | nil =>
        have hb : encodeItems [] ++ rest = 101 :: rest := by simp [encodeItems]
        rw [hb]
        simp only [decodeItemsAux]
        rw [if_true]
      | cons v vs =>
        obtain ⟨c, cs, hc, hne⟩ := encodeVal_head v
        have hb : encodeItems (v :: vs) ++ rest = c :: (cs ++ (encodeItems vs ++ rest)) := by
          simp [encodeItems, hc]
        rw [hb]
        simp only [decodeItemsAux]
        rw [if_neg hne]
        have hb2 : c :: (cs ++ (encodeItems vs ++ rest))
            = encodeVal v ++ (encodeItems vs ++ rest) := by
          simp [hc]
        rw [hb2]
        simp only [itemsNeed] at hf
        have h1 := ihv v (encodeItems vs ++ rest) (by omega)
        have h2 := ihi vs rest (by omega)
        simp [h1, h2]
    · intro ps rest hf
      cases ps with
      | nil =>
        have hb : encodePairs [] ++ rest = 101 :: rest := by simp [encodePairs]
        rw [hb]
        simp only [decodePairsAux]
        rw [if_true]
      | cons p ps =>
        obtain ⟨k, v⟩ := p
        obtain ⟨d, ds, hd⟩ : ∃ d ds, natDecimal k.length = d :: ds := by
          cases hh : natDecimal k.length with
          | nil => exact absurd hh (natDecimal_ne_nil _)
          | cons a b => exact ⟨a, b, rfl⟩
        have hdig : 48 ≤ d ∧ d ≤ 57 := natDecimal_mem _ d (by rw [hd]; simp)
        have hb : encodePairs ((k, v) :: ps) ++ rest
            = d :: (ds ++ 58 :: (k ++ (encodeVal v ++ (encodePairs ps ++ rest)))) := by
          simp [encodePairs, hd]
        rw [hb]
        simp only [decodePairsAux]
        rw [if_neg (show ¬ d = 101 by omega)]
        have hb2 : d :: (ds ++ 58 :: (k ++ (encodeVal v ++ (encodePairs ps ++ rest))))
            = natDecimal k.length ++ 58 :: k ++ (encodeVal v ++ (encodePairs ps ++ rest)) := by
          simp [hd]
        rw [hb2, decodeStr_encode]
        simp only [pairsNeed] at hf
        have h1 := ihv v (encodePairs ps ++ rest) (by omega)
        have h2 := ihp ps rest (by omega)
        simp [h1, h2]

theorem decodeVal_encodeVal (fuel : Nat) (v : BVal) (rest : List Nat)
    (h : fuelNeed v ≤ fuel) : decodeVal fuel (encodeVal v ++ rest) = some (v, rest) :=
  (decodeRoundAll fuel).1 v rest h

theorem decode_encode (m : Message) : decode (encode m) = some (m, []) := by
  unfold decode encode
  have h := (decodeRoundAll (encodeVal (.dict m)).length).1 (.dict m) []
    (fuelNeed_le_len _)
  rw [List.append_nil] at h
  rw [h]

/-! ## Claim C2: codec round trip -/

/-- C2: for every message built from the recognized field set (binary-safe
text, integer, sequence and mapping values over the recognized keys),
decoding the encoding returns exactly the message, with no residual bytes. -/
theorem claim_roundtrip_codec (m : Message) (_hm : isMessage m) :
    decode (encode m) = some (m, []) := decode_encode m

/-- Witness for C2 at a concrete eval message. -/
theorem claim_roundtrip_codec_witness :
    isMessage sampleMessage ∧ decode (encode sampleMessage) = some (sampleMessage, []) :=
  ⟨by decide, claim_roundtrip_codec sampleMessage (by decide)⟩

/-! ## Claim C1: timeouts preserve the accumulator -/

/-- C1: a `receive_one` that reads part of a message and then hits the read
deadline preserves the read-side accumulator exactly — the prior bytes plus
the bytes read, nothing discarded or duplicated — and a subsequent call with
a fresh deadline that delivers the remaining bytes decodes the full original
message. -/
theorem claim_timeout_preserves_accumulator (acc c1 c2 : List Nat) (m : Message)
    (hacc : decode acc = none) (hpart : decode (acc ++ c1) = none)
    (hfull : decode (acc ++ c1 ++ c2) = some (m, [])) :
    receiveOne ⟨acc, false⟩ [.chunk c1, .timeout]
      = ⟨.timeout, ⟨acc ++ c1, false⟩, [], 2⟩ ∧
    receiveOne ⟨acc ++ c1, false⟩ [.chunk c2] = ⟨.msg m, ⟨[], false⟩, [], 1⟩ := by
  have hfull2 : decode (acc ++ (c1 ++ c2)) = some (m, []) := by
    rw [← List.append_assoc]
    exact hfull
  constructor
  · simp [receiveOne, hacc, hpart]
  · simp [receiveOne, hpart, hfull2]

/-- Witness for C1: the sample encoding split after five bytes. -/
theorem claim_timeout_preserves_accumulator_witness :
    (decode ([] ++ chunkA) = none ∧ decode ([] ++ chunkA ++ chunkB) = some (msgA, [])) ∧
    (receiveOne ⟨[], false⟩ [.chunk chunkA, .timeout]
        = ⟨.timeout, ⟨[] ++ chunkA, false⟩, [], 2⟩ ∧
      receiveOne ⟨[] ++ chunkA, false⟩ [.chunk chunkB]
        = ⟨.msg msgA, ⟨[], false⟩, [], 1⟩) :=
  ⟨⟨by rfl, by rfl⟩,
   claim_timeout_preserves_accumulator [] chunkA chunkB msgA (by rfl) (by rfl) (by rfl)⟩

/-! ## Claim C4: EOF closes the connection permanently -/

theorem receiveOne_unfold (t : Transport) (evs : List ReadEv) :
    receiveOne t evs =
      (if t.closed then ⟨.connClosed, t, evs, 0⟩
       else
         match decode t.acc with
         | some (m, restBytes) => ⟨.msg m, { t with acc := restBytes }, evs, 0⟩
         | none =>
           match evs with
           | [] => ⟨.timeout, t, [], 0⟩
           | .timeout :: evs2 => ⟨.timeout, t, evs2, 1⟩
           | .eof :: evs2 => ⟨.connClosed, { t with closed := true }, evs2, 1⟩
           | .chunk bs :: evs2 =>
             let r := receiveOne { t with acc := t.acc ++ bs } evs2
             ⟨r.res, r.t, r.evs, r.reads + 1⟩) := by
  cases evs with
  | nil => simp only [receiveOne]
  | cons ev evs2 => cases ev <;> simp only [receiveOne]

theorem receiveOne_closed (t : Transport) (evs : List ReadEv) (h : t.closed = true) :
    receiveOne t evs = ⟨.connClosed, t, evs, 0⟩ := by
  rw [receiveOne_unfold]
  simp [h]

theorem receiveOne_connClosed_closes (evs : List ReadEv) :
    ∀ t : Transport, t.closed = false →
      (receiveOne t evs).res = .connClosed → (receiveOne t evs).t.closed = true := by
  induction evs with
  | nil =>
    intro t ho hr
    rw [receiveOne_unfold] at hr
    cases hdec : decode t.acc with
    | some pr => simp [ho, hdec] at hr
    | none => simp [ho, hdec] at hr
  | cons ev evs ih =>
    intro t ho hr
    cases hdec : decode t.acc with
    | some pr =>
      rw [receiveOne_unfold] at hr
      simp [ho, hdec] at hr
    | none =>
      cases ev with
      | timeout =>
        rw [receiveOne_unfold] at hr
        simp [ho, hdec] at hr
      | eof =>
        rw [receiveOne_unfold] at hr ⊢
        simp [ho, hdec]
      | chunk bs =>
        rw [receiveOne_unfold] at hr ⊢
        simp [ho, hdec] at hr ⊢
        exact ih _ rfl hr

theorem runOps_closed (ops : List TransportOp) :
    ∀ t : Transport, t.closed = true →
      (runOps t ops).1 = ops.map (fun _ => OpOutcome.connClosed) ∧
      (runOps t ops).2.1 = t ∧ (runOps t ops).2.2 = 0 := by
  induction ops with
  | nil =>
    intro t hc
    simp [runOps]
  | cons op ops ih =>
    intro t hc
    have hop : runOp t op = (.connClosed, t, 0) := by
      cases op with
      | opSend m => simp [runOp, hc]
      | opRecv evs => simp [runOp, receiveOne_closed t evs hc]
    simp [runOps, hop, ih t hc]

/-- C4: once an open transport's receive reports `ConnectionClosed` (the
zero-byte-read case), the connection is permanently Closed: `is_connected`
returns false, and every subsequent operation returns `ConnectionClosed`,
leaves the state unchanged, and performs zero further socket I/O attempts. -/
theorem claim_eof_permanently_closed (t : Transport) (evs : List ReadEv)
    (ops : List TransportOp) (hopen : t.closed = false)
    (hres : (receiveOne t evs).res = .connClosed) :
    is_connected (receiveOne t evs).t = false ∧
    (runOps (receiveOne t evs).t ops).1 = ops.map (fun _ => OpOutcome.connClosed) ∧
    (runOps (receiveOne t evs).t ops).2.1 = (receiveOne t evs).t ∧
    (runOps (receiveOne t evs).t ops).2.2 = 0 := by
  have hc := receiveOne_connClosed_closes evs t hopen hres
  refine ⟨?_, ?_, ?_, ?_⟩
  · simp [is_connected, hc]
  · exact (runOps_closed ops _ hc).1
  · exact (runOps_closed ops _ hc).2.1
  · exact (runOps_closed ops _ hc).2.2

/-- Witness for C4: an immediate EOF, followed by a send and a receive. -/
theorem claim_eof_permanently_closed_witness :
    ((receiveOne ⟨[], false⟩ [.eof]).res = .connClosed) ∧
    (is_connected (receiveOne ⟨[], false⟩ [.eof]).t = false ∧
      (runOps (receiveOne ⟨[], false⟩ [.eof]).t [.opSend msgA, .opRecv [.chunk chunkA]]).1
        = [TransportOp.opSend msgA, TransportOp.opRecv [.chunk chunkA]].map
            (fun _ => OpOutcome.connClosed) ∧
      (runOps (receiveOne ⟨[], false⟩ [.eof]).t [.opSend msgA, .opRecv [.chunk chunkA]]).2.1
        = (receiveOne ⟨[], false⟩ [.eof]).t ∧
      (runOps (receiveOne ⟨[], false⟩ [.eof]).t [.opSend msgA, .opRecv [.chunk chunkA]]).2.2
        = 0) :=
  ⟨by rfl,
   claim_eof_permanently_closed ⟨[], false⟩ [.eof]
     [.opSend msgA, .opRecv [.chunk chunkA]] (by rfl) (by rfl)⟩

/-! ## Claim C3: eval fragment aggregation -/

theorem runEval_foldl (awaited : Nat) :
    ∀ (body : List Frag) (last : Frag) (st : EvalAgg),
      (∀ f ∈ body, f.fid = awaited) → (∀ f ∈ body, isDone f = false) →
      last.fid = awaited → isDone last = true →
      runEval awaited st (body ++ [last])
        = some (List.foldl (stepFrag awaited) st (body ++ [last])) := by
  intro body
  induction body with
  | nil =>
    intro last st _ _ hlid hld
    simp [runEval, hlid, hld]
  | cons f body ih =>
    intro last st hbid hbnd hlid hld
    have h2 : isDone f = false := hbnd f (by simp)
    simp only [List.cons_append, runEval, h2, Bool.and_false, Bool.false_eq_true, if_false,
      List.foldl_cons]
    exact ih last (stepFrag awaited st f)
      (fun g hg => hbid g (List.mem_cons_of_mem f hg))
      (fun g hg => hbnd g (List.mem_cons_of_mem f hg)) hlid hld

theorem foldl_stepFrag (awaited : Nat) :
    ∀ (fs : List Frag) (st : EvalAgg), (∀ f ∈ fs, f.fid = awaited) →
      List.foldl (stepFrag awaited) st fs
        = ⟨st.output ++ outConcat fs,
           (match lastValue fs with | some v => some v | none => st.value),
           st.hasError || anyErr fs,
           st.errText ++ errConcat fs⟩ := by
  intro fs
  induction fs with
  | nil =>
    intro st _
    simp [outConcat, lastValue, anyErr, errConcat]
  | cons f fs ih =>
    intro st hall
    have h1 : f.fid = awaited := hall f (by simp)
    rw [List.foldl_cons, ih _ (fun g hg => hall g (List.mem_cons_of_mem f hg))]
    cases hlf : lastValue fs with
    | some v => simp [stepFrag, h1, outConcat, lastValue, anyErr, errConcat, hlf, Bool.or_assoc]
    | none => simp [stepFrag, h1, outConcat, lastValue, anyErr, errConcat, hlf, Bool.or_assoc]

/-- C3: for a fragment sequence on the awaited id whose final fragment alone
carries the terminal done status, eval aggregation returns the concatenation
of all out texts in arrival order, the last value fragment (later value
fragments overwrite earlier ones), and an error flag that is set exactly when
some err or exception fragment arrived — in particular false when none did. -/
theorem claim_eval_aggregation (awaited : Nat) (body : List Frag) (last : Frag)
    (hbid : ∀ f ∈ body, f.fid = awaited) (hbnd : ∀ f ∈ body, isDone f = false)
    (hlid : last.fid = awaited) (hld : isDone last = true) :
    runEval awaited initAgg (body ++ [last])
      = some ⟨outConcat (body ++ [last]), lastValue (body ++ [last]),
              anyErr (body ++ [last]), errConcat (body ++ [last])⟩ := by
  rw [runEval_foldl awaited body last initAgg hbid hbnd hlid hld]
  have hall : ∀ f ∈ body ++ [last], f.fid = awaited := by
    intro f hf
    rcases List.mem_append.mp hf with h | h
    · exact hbid f h
    · simp only [List.mem_singleton] at h
      rw [h]
      exact hlid
  rw [foldl_stepFrag awaited (body ++ [last]) initAgg hall]
  cases hlv : lastValue (body ++ [last]) with
  | some v => simp [initAgg, hlv]
  | none => simp [initAgg, hlv]

/-- Witness for C3 at the fragments {id 7, out a}, {id 7, out b},
{id 7, value 3}, {id 7, status [done]}. -/
theorem claim_eval_aggregation_witness :
    runEval 7 initAgg (fragsEx ++ [fragDone 7])
      = some ⟨['a', 'b'], some ['3'], false, []⟩ := by
  have h := claim_eval_aggregation 7 fragsEx (fragDone 7)
    (by decide) (by decide) (by decide) (by decide)
  rw [h]
  rfl

/-! ## Claim C8: parse_port_from_output -/

theorem takeWhile_congr_on (p q : Char → Bool) :
    ∀ l : List Char, (∀ c ∈ l, p c = q c) → l.takeWhile p = l.takeWhile q := by
  intro l
  induction l with
  | nil => intro _; rfl
  | cons c l ih =>
    intro h
    have hc := h c (by simp)
    have hl := ih (fun x hx => h x (List.mem_cons_of_mem c hx))
    simp [List.takeWhile_cons, hc, hl]

theorem portMatchAtP_congr (p q : Char → Bool) (l : List Char)
    (h : ∀ c ∈ l, p c = q c) : portMatchAtP p l = portMatchAtP q l := by
  unfold portMatchAtP
  rw [takeWhile_congr_on p q (l.drop 5) (fun c hc => h c (List.mem_of_mem_drop hc))]

theorem findPortRunP_congr (p q : Char → Bool) :
    ∀ l : List Char, (∀ c ∈ l, p c = q c) → findPortRunP p l = findPortRunP q l := by
  intro l
  induction l with
  | nil => intro _; rfl
  | cons c rest ih =>
    intro h
    simp only [findPortRunP]
    rw [portMatchAtP_congr p q (c :: rest) h,
      ih (fun x hx => h x (List.mem_cons_of_mem c hx))]

theorem isUniDigit_ascii (c : Char) (h : c.toNat < 128) : isUniDigit c = c.isDigit := by
  have h1 : decide (0x660 ≤ c.toNat) = false := by
    rw [decide_eq_false_iff_not]
    omega
  simp [isUniDigit, h1]

/-- C8 (amended): on lines of ASCII characters the claimed characterisation
holds exactly — the leftmost `port ` followed by one or more digits, with the
maximal digit run parsed as a u16, None otherwise (including u16 overflow);
in general the regex digit escape matches any Unicode decimal digit, so an
earlier `port ` followed by a non-ASCII digit captures first and forces None.
-/
theorem claim_port_parse_ascii (line : List Char) (h : ∀ c ∈ line, c.toNat < 128) :
    parse_port_from_output line = claimedPortParse line := by
  unfold parse_port_from_output claimedPortParse
  rw [findPortRunP_congr isUniDigit Char.isDigit line
    (fun c hc => isUniDigit_ascii c (h c hc))]

/-- Witness for C8 (amended) on an ASCII startup line. -/
theorem claim_port_parse_ascii_witness :
    (∀ c ∈ portLine, c.toNat < 128) ∧
    parse_port_from_output portLine = claimedPortParse portLine ∧
    parse_port_from_output portLine = some 7888 :=
  ⟨by decide, claim_port_parse_ascii portLine (by decide), by rfl⟩

/-- C8 counterexample: the first `port ` of the line is followed by the
Arabic-Indic digit U+0660, which the regex digit class matches but the u16
parser rejects, so the function returns none although the line contains
`port ` followed by the ASCII digit run 7, which the claim says must win. -/
theorem claim_port_parse_counterexample :
    parse_port_from_output cexLine = none ∧ claimedPortParse cexLine = some 7 := by
  constructor <;> rfl

/-! ## Claims C5 and C7: the launch paths -/

theorem pollLoop_eq (n : Nat) : ∀ reads, pollLoopLein n reads = pollLoopClj n reads := by
  induction n with
  | zero => intro reads; rfl
  | succ n ih =>
    intro reads
    cases reads with
    | nil => simp only [pollLoopLein, pollLoopClj, ih]
    | cons r rest =>
      cases r with
      | none => simp only [pollLoopLein, pollLoopClj, ih]
      | some line =>
        cases hp : parse_port_from_output line with
        | some p => simp [pollLoopLein, pollLoopClj, hp]
        | none => simp [pollLoopLein, pollLoopClj, hp, ih]

theorem pollLoopClj_port (n : Nat) :
    ∀ reads, (pollLoopClj n reads).1 = (firstParsedPort (reads.take n)).getD 0 := by
  induction n with
  | zero => intro reads; simp [pollLoopClj, firstParsedPort]
  | succ n ih =>
    intro reads
    cases reads with
    | nil =>
      simp [pollLoopClj, firstParsedPort, ih []]
    | cons r rest =>
      cases r with
      | none => simp [pollLoopClj, firstParsedPort, List.take_succ_cons, ih rest]
      | some line =>
        cases hp : parse_port_from_output line with
        | some p => simp [pollLoopClj, hp, firstParsedPort, List.take_succ_cons]
        | none => simp [pollLoopClj, hp, firstParsedPort, List.take_succ_cons, ih rest]

theorem pollLoopClj_take (n : Nat) :
    ∀ reads, pollLoopClj n reads = pollLoopClj n (reads.take n) := by
  induction n with
  | zero => intro reads; rfl
  | succ n ih =>
    intro reads
    cases reads with
    | nil => rfl
    | cons r rest =>
      rw [List.take_succ_cons]
      cases r with
      | none =>
        simp only [pollLoopClj]
        rw [← ih rest]
      | some line =>
        cases hp : parse_port_from_output line with
        | some p => simp [pollLoopClj, hp]
        | none =>
          simp only [pollLoopClj, hp]
          rw [← ih rest]

/-- C5 counterexample: a process that spawns and never reports a port (its
only line parses no port) makes `start_with_clj` return success with port 0
and ten sleeps — not a launch error, and not a usable port — and
`start_with_lein` likewise returns success with port 0. -/
theorem claim_launch_counterexample :
    parse_port_from_output noPortLine = none ∧
    start_with_clj (.ok [some noPortLine]) = .ok ⟨0, 10, 0⟩ ∧
    start_with_lein (.ok [some noPortLine]) = .ok ⟨0, 10, 2000⟩ := by
  refine ⟨rfl, rfl, rfl⟩

/-- C5 (amended): on both launch paths — `start_with_clj` and
`start_with_lein` — launch fails with an error only when spawning the
external process fails; whenever the process spawns, launch returns success,
the port being the first one parsed among at most ten stdout line reads and
0 — not an error — when no line reports a port. -/
theorem claim_launch_port_amended (reads : List LineRead) (e : Unit) :
    start_with_clj (.error e) = .error e ∧
    start_with_lein (.error e) = .error e ∧
    (start_with_clj (.ok reads)).map (fun o => o.port)
      = .ok ((firstParsedPort (reads.take 10)).getD 0) ∧
    (start_with_lein (.ok reads)).map (fun o => o.port)
      = .ok ((firstParsedPort (reads.take 10)).getD 0) := by
  refine ⟨rfl, rfl, ?_, ?_⟩
  · simp [start_with_clj, pollLoopClj_port 10 reads, Except.map]
  · simp [start_with_lein, pollLoop_eq 10 reads, pollLoopClj_port 10 reads, Except.map]

/-- C7: both launch paths run the same bounded polling — same confirmed port
and same count of 200 ms sleeps, inspecting at most 10 line reads, breaking
without further sleep as soon as a line parses a port; `start_with_clj`
returns right after polling (no extra sleep) while `start_with_lein`
additionally sleeps a fixed 2000 ms before returning the same port. -/
theorem claim_launch_paths_timing (reads : List LineRead) :
    pollLoopLein 10 reads = pollLoopClj 10 reads ∧
    pollLoopClj 10 reads = pollLoopClj 10 (reads.take 10) ∧
    start_with_clj (.ok reads)
      = .ok ⟨(pollLoopClj 10 reads).1, (pollLoopClj 10 reads).2, 0⟩ ∧
    start_with_lein (.ok reads)
      = .ok ⟨(pollLoopClj 10 reads).1, (pollLoopClj 10 reads).2, 2000⟩ ∧
    (∀ line p rest, parse_port_from_output line = some p →
      pollLoopClj 10 (some line :: rest) = (p, 0)) := by
  refine ⟨pollLoop_eq 10 reads, pollLoopClj_take 10 reads, ?_, ?_, ?_⟩
  · simp [start_with_clj]
  · simp [start_with_lein, pollLoop_eq 10 reads]
  · intro line p rest hp
    simp [pollLoopClj, hp]

/-- Witness for C7: immediate break on a first line reporting port 7888. -/
theorem claim_launch_paths_timing_witness :
    parse_port_from_output portLine = some 7888 ∧
    pollLoopClj 10 (some portLine :: []) = (7888, 0) :=
  ⟨by rfl, (claim_launch_paths_timing []).2.2.2.2 portLine 7888 [] (by rfl)⟩

/-! ## Claim C9: stop is idempotent -/

/-- C9: stopping a server with no child process returns Ok and changes
nothing; any stop that returns Ok leaves the child handle cleared, so
`is_running` is false and a second stop again returns Ok without change. -/
theorem claim_stop_idempotent (s s2 : ServerSt) :
    (s.child = none → stop s = (.ok (), s)) ∧
    (stop s = (.ok (), s2) →
      s2.child = none ∧ is_running s2 = false ∧ stop s2 = (.ok (), s2)) := by
  constructor
  · intro h
    simp [stop, h]
  · intro h
    cases hs : s.child with
    | none =>
      simp [stop, hs] at h
      subst h
      exact ⟨hs, by simp [is_running, hs], by simp [stop, hs]⟩
    | some c =>
      cases hk : c.killOk with
      | false => simp [stop, hs, hk] at h
      | true =>
        cases hw : c.waitOk with
        | false => simp [stop, hs, hk, hw] at h
        | true =>
          simp [stop, hs, hk, hw] at h
          subst h
          exact ⟨rfl, by simp [is_running], by simp [stop]⟩

/-- Witness for C9: a never-started server stopped twice. -/
theorem claim_stop_idempotent_witness :
    stop ⟨none, none⟩ = (.ok (), (⟨none, none⟩ : ServerSt)) ∧
    ((⟨none, none⟩ : ServerSt).child = none ∧
      is_running ⟨none, none⟩ = false ∧
      stop ⟨none, none⟩ = (.ok (), (⟨none, none⟩ : ServerSt))) :=
  ⟨(claim_stop_idempotent ⟨none, none⟩ ⟨none, none⟩).1 rfl,
   (claim_stop_idempotent ⟨none, none⟩ ⟨none, none⟩).2
     ((claim_stop_idempotent ⟨none, none⟩ ⟨none, none⟩).1 rfl)⟩

/-! ## Claims C6 and C10: the CLI entry point -/

/-- C6: main selects between exactly two modes on its first positional
argument — server mode when it equals `server`, and otherwise client mode
against the port parsed as a u16 from the second positional argument. -/
theorem claim_main_mode_selection (args : List (List Char)) (sel : List Char)
    (h1 : args[1]? = some sel) :
    (sel = serverArg → mainModel args = .serverMode) ∧
    (∀ ps p, sel ≠ serverArg → args[2]? = some ps → parseU16 ps = some p →
      mainModel args = .clientMode p) := by
  constructor
  · intro hs
    simp [mainModel, h1, hs]
  · intro ps p hns h2 hp
    simp [mainModel, h1, hns, h2, hp]

/-- Witness for C6: a server invocation and a client invocation on port 80. -/
theorem claim_main_mode_selection_witness :
    mainModel [['m'], serverArg] = .serverMode ∧
    mainModel [['m'], ['c'], ['8', '0']] = .clientMode 80 :=
  ⟨(claim_main_mode_selection [['m'], serverArg] serverArg rfl).1 rfl,
   (claim_main_mode_selection [['m'], ['c'], ['8', '0']] ['c'] rfl).2 ['8', '0'] 80
     (by decide) rfl (by rfl)⟩

/-- C10: main indexes its argument list unconditionally — with no argument
beyond the program name it panics indexing args[1] before selecting a mode;
in client mode a missing second positional argument panics indexing args[2],
and an unparsable port panics in expect; no typed error is reported. -/
theorem claim_main_panics (args : List (List Char)) :
    (args.length ≤ 1 → mainModel args = .panicIndex) ∧
    (∀ sel, args[1]? = some sel → sel ≠ serverArg → args.length ≤ 2 →
      mainModel args = .panicIndex) ∧
    (∀ sel ps, args[1]? = some sel → sel ≠ serverArg → args[2]? = some ps →
      parseU16 ps = none → mainModel args = .panicParse) := by
  refine ⟨?_, ?_, ?_⟩
  · intro h
    have h1 : args[1]? = none := List.getElem?_eq_none (by omega)
    simp [mainModel, h1]
  · intro sel h1 hns h2
    have h2x : args[2]? = none := List.getElem?_eq_none (by omega)
    simp [mainModel, h1, hns, h2x]
  · intro sel ps h1 hns h2 hp
    simp [mainModel, h1, hns, h2, hp]

/-- Witness for C10: the three panic shapes of main. -/
theorem claim_main_panics_witness :
    mainModel [['m']] = .panicIndex ∧
    mainModel [['m'], ['c']] = .panicIndex ∧
    mainModel [['m'], ['c'], ['x']] = .panicParse :=
  ⟨(claim_main_panics [['m']]).1 (by decide),
   (claim_main_panics [['m'], ['c']]).2.1 ['c'] rfl (by decide) (by decide),
   (claim_main_panics [['m'], ['c'], ['x']]).2.2 ['c'] ['x'] rfl (by decide) rfl (by rfl)⟩

end NreplDemo
